import Mathlib

/-!
# CKRStudios `script.js` — scroll-driven animation engine

A shallow embedding of the arithmetic core of `src/script.js`:
the interpolation helpers, the colour-stop lookup and frame smoothing of the
cinematic background, the horizontal-scroll progress mapper, the counter
animation, the visibility observers and the cursor-follow loop.

Numbers are exact: a finite JavaScript number is a rational `ℚ`, and the three
non-finite values a division can produce are kept apart in `JSNum`.
`Math.round` is round-half-up (`⌊x + 1/2⌋`), `Math.floor` is `⌊x⌋`.
-/

namespace CKRStudios

/-! ## Numbers -/

/-- A JavaScript number: a finite value, `Infinity`, `-Infinity` or `NaN`. -/
inductive JSNum where
  | fin (q : ℚ)
  | posInf
  | negInf
  | nan
  deriving DecidableEq

/-- The JavaScript quotient `n / d` of two finite numbers (the divisor `0` is `+0`). -/
def jsDiv (n d : ℚ) : JSNum :=
  if d ≠ 0 then .fin (n / d)
  else if 0 < n then .posInf
  else if n < 0 then .negInf
  else .nan

/-- The call `Math.max(v, m)` for a finite second argument. -/
def mathMax (v : JSNum) (m : ℚ) : JSNum :=
  match v with
  | .fin q => .fin (max q m)
  | .posInf => .posInf
  | .negInf => .fin m
  | .nan => .nan

/-- The call `Math.min(v, m)` for a finite second argument. -/
def mathMin (v : JSNum) (m : ℚ) : JSNum :=
  match v with
  | .fin q => .fin (min q m)
  | .posInf => .fin m
  | .negInf => .negInf
  | .nan => .nan

/-- The JavaScript product `v * m` for a finite second argument. -/
def jsMul (v : JSNum) (m : ℚ) : JSNum :=
  match v with
  | .fin q => .fin (q * m)
  | .posInf => if 0 < m then .posInf else if m < 0 then .negInf else .nan
  | .negInf => if 0 < m then .negInf else if m < 0 then .posInf else .nan
  | .nan => .nan

/-- The function `Math.round` on a finite number: the nearest integer, halves rounded up. -/
def mathRound (x : ℚ) : ℤ := ⌊x + 1 / 2⌋

/-- The function `Math.floor` on a finite number. -/
def mathFloor (x : ℚ) : ℤ := ⌊x⌋

/-! ## Helpers (`script.js` lines 27–47) -/

/-- The helper `lerp(a, b, t)`: `return a + (b - a) * t;` -/
def lerp (a b t : ℚ) : ℚ := a + (b - a) * t

/-- The helper `clamp(v, min, max)`: `return Math.min(Math.max(v, min), max);` -/
def clamp (v : JSNum) (min max : ℚ) : JSNum := mathMin (mathMax v min) max

/-- The helper `invLerp(a, b, v)`: `return clamp((v - a) / (b - a), 0, 1);` -/
def invLerp (a b v : ℚ) : JSNum := clamp (jsDiv (v - a) (b - a)) 0 1

/-- An `[r, g, b]` array of integer channels. -/
structure RGB where
  r : ℤ
  g : ℤ
  b : ℤ
  deriving DecidableEq

/-- The value of one hexadecimal digit, `none` for any other character. -/
def hexDigit (c : Char) : Option ℕ :=
  if 48 ≤ c.toNat ∧ c.toNat ≤ 57 then some (c.toNat - 48)
  else if 97 ≤ c.toNat ∧ c.toNat ≤ 102 then some (c.toNat - 87)
  else if 65 ≤ c.toNat ∧ c.toNat ≤ 70 then some (c.toNat - 55)
  else none

/-- The digits `parseInt(s, 16)` consumes: the longest run of hexadecimal
digits at the start of `s`. -/
def hexRun : List Char → List ℕ
  | [] => []
  | c :: cs =>
    match hexDigit c with
    | some d => d :: hexRun cs
    | none => []

/-- The call `parseInt(s, 16)` on a string without sign, blanks or `0x`: `none` is `NaN`. -/
def parseInt16 (s : List Char) : Option ℤ :=
  match hexRun s with
  | [] => none
  | ds => some (ds.foldl (fun acc d => 16 * acc + (d : ℤ)) 0)

/-- The call `hex.slice(i, j)` for `0 ≤ i ≤ j`. -/
def slice (s : List Char) (i j : ℕ) : List Char := (s.take j).drop i

/-- The helper `hex2rgb(hex)`: the three channels parsed from `#rrggbb`; `none` when a
channel is `NaN`. -/
def hex2rgb (hex : String) : Option RGB :=
  match parseInt16 (slice hex.toList 1 3), parseInt16 (slice hex.toList 3 5),
      parseInt16 (slice hex.toList 5 7) with
  | some r, some g, some b => some ⟨r, g, b⟩
  | _, _, _ => none

/-- The helper `lerpColor(a, b, t)`: channel-wise `Math.round(lerp(a[i], b[i], t))`. -/
def lerpColor (a b : RGB) (t : ℚ) : RGB :=
  ⟨mathRound (lerp a.r b.r t), mathRound (lerp a.g b.g t), mathRound (lerp a.b b.b t)⟩

/-! ## 01. Cinematic background (`script.js` lines 63–136) -/

/-- An entry of `stops`: a position `pct` and a colour `hex`. -/
structure HexStop where
  pct : ℚ
  hex : String

/-- An entry of `rgbStops`: a position `pct` and a colour `rgb`. -/
structure RgbStop where
  pct : ℚ
  rgb : RGB
  deriving DecidableEq

/-- The hard-coded `stops` array. -/
def stops : List HexStop :=
  [ ⟨0.00, "#FFFFFF"⟩, ⟨0.12, "#F5F4F2"⟩, ⟨0.22, "#E8E5DF"⟩, ⟨0.32, "#C0BBB0"⟩,
    ⟨0.43, "#6E6860"⟩, ⟨0.52, "#1A1714"⟩, ⟨0.60, "#080706"⟩, ⟨0.68, "#0A0908"⟩,
    ⟨0.76, "#1C1A16"⟩, ⟨0.83, "#5A5448"⟩, ⟨0.90, "#C4BEB4"⟩, ⟨0.95, "#EAE7E1"⟩,
    ⟨1.00, "#FFFFFF"⟩ ]

/-- The array `rgbStops`: each stop with its `hex` replaced by `hex2rgb(s.hex)`.
Every hard-coded entry parses, so no entry is dropped. -/
def rgbStops : List RgbStop :=
  stops.filterMap fun s => (hex2rgb s.hex).map fun c => ⟨s.pct, c⟩

/-- What `getColorAtScroll` hands back: an integer triple, a triple of `NaN`
(interpolation factor `0/0`), or a `TypeError` (reading `.rgb` of `undefined`). -/
inductive ColorResult where
  | rgb (c : RGB)
  | nanRgb
  | typeError
  deriving DecidableEq

/-- The `for` loop of `getColorAtScroll`: the colour of the first adjacent pair
`a, b` with `a.pct ≤ scrollPct ≤ b.pct`, `none` when the loop falls through. -/
def scanStops : List RgbStop → ℚ → Option ColorResult
  | a :: b :: rest, scrollPct =>
    if a.pct ≤ scrollPct ∧ scrollPct ≤ b.pct then
      match invLerp a.pct b.pct scrollPct with
      | .fin t => some (.rgb (lerpColor a.rgb b.rgb t))
      | _ => some .nanRgb
    else scanStops (b :: rest) scrollPct
  | _, _ => none

/-- The function `getColorAtScroll(scrollPct)` over the stop list `rgbStops`. -/
def getColorAtScroll (rgbStops : List RgbStop) (scrollPct : ℚ) : ColorResult :=
  match scanStops rgbStops scrollPct with
  | some c => c
  | none =>
    match rgbStops.getLast? with
    | some s => .rgb s.rgb
    | none => .typeError

/-- The function `isDark(rgb)`: luminance below 128. -/
def isDark (rgb : RGB) : Bool :=
  decide (0.299 * (rgb.r : ℚ) + 0.587 * (rgb.g : ℚ) + 0.114 * (rgb.b : ℚ) < 128)

/-- The smoothing constant of `update`. -/
def smoothing : ℚ := 0.12

/-- One frame of the background `update()`, as far as the colour goes: the
scroll fraction, the target colour and the new `currentBgRgb`; `none` when the
target is not an integer triple. -/
def update (rgbStops : List RgbStop) (scrollY scrollHeight innerHeight : ℚ)
    (currentBgRgb : RGB) : Option RGB :=
  let maxScroll := scrollHeight - innerHeight
  let pct := if 0 < maxScroll then scrollY / maxScroll else 0
  match getColorAtScroll rgbStops pct with
  | .rgb target => some (lerpColor currentBgRgb target smoothing)
  | _ => none

/-- The frame smoothing step under a fixed target, repeated `n` times. -/
def smoothFrames (target : RGB) : ℕ → RGB → RGB
  | 0, current => current
  | n + 1, current => smoothFrames target n (lerpColor current target smoothing)

/-! ## 05. Horizontal scroll (`script.js` lines 235–275) -/

/-- The layout values one call of the horizontal-scroll `update()` reads. -/
structure TrackGeometry where
  /-- The value `conf.outer.getBoundingClientRect().top`. -/
  top : ℚ
  /-- The value `conf.outer.offsetHeight`. -/
  outerH : ℚ
  /-- The value `window.innerHeight`. -/
  viewH : ℚ
  /-- The value `conf.track.scrollWidth`. -/
  trackW : ℚ
  /-- The value `conf.track.parentElement.offsetWidth`. -/
  viewportW : ℚ
  /-- The value `parseInt(getComputedStyle(conf.track).paddingLeft)`. -/
  paddingLeft : ℤ

/-- The inline styles `update()` writes. `transform = some s` is the string
`translateX(-s px)`; `progressWidth = some w` is the string `w%`; `none` is a
property the script has not written. -/
structure TrackStyle where
  transform : Option JSNum
  progressWidth : Option JSNum
  deriving DecidableEq

namespace TrackGeometry

/-- The line `const scrolled = -outerRect.top;` -/
def scrolled (g : TrackGeometry) : ℚ := -g.top

/-- The line `const scrollable = outerH - viewH;` -/
def scrollable (g : TrackGeometry) : ℚ := g.outerH - g.viewH

/-- The line `const pct = clamp(scrolled / scrollable, 0, 1);` -/
def pct (g : TrackGeometry) : JSNum := clamp (jsDiv g.scrolled g.scrollable) 0 1

/-- The line `const maxShift = trackW - viewportW + parseInt(...paddingLeft) * 2;` -/
def maxShift (g : TrackGeometry) : ℚ := g.trackW - g.viewportW + (g.paddingLeft : ℚ) * 2

end TrackGeometry

/-- One call of the horizontal-scroll `update()` for a track whose config has a
progress element iff `hasProgress`; `style` holds the inline styles before the
call. -/
def HorizontalScroll.update (g : TrackGeometry) (hasProgress : Bool) (style : TrackStyle) :
    TrackStyle :=
  let style1 : TrackStyle :=
    if 0 < g.maxShift then { style with transform := some (jsMul g.pct g.maxShift) } else style
  if hasProgress then { style1 with progressWidth := some (jsMul g.pct 100) } else style1

/-- The horizontal translation in px that a written `transform` denotes:
`translateX(-s px)` with a finite `s` moves the track by `-s`. -/
def translation : Option JSNum → Option ℚ
  | some (.fin s) => some (-s)
  | _ => none

/-! ## 07. Animated counters (`script.js` lines 303–336) -/

/-- The function `easeOut(t)`: `return 1 - Math.pow(1 - t, 3);` -/
def easeOut (t : ℚ) : ℚ := 1 - (1 - t) ^ 3

/-- The constant `DURATION = 1700`. -/
def DURATION : ℚ := 1700

/-- The call `s.trim()` on the characters of `s` (blanks, tabs and line ends). -/
def trim (s : List Char) : List Char :=
  ((s.dropWhile Char.isWhitespace).reverse.dropWhile Char.isWhitespace).reverse

/-- The call `parseInt(s)` on a string of decimal digits: `none` is `NaN` (no digit). -/
def parseInt10 (s : List Char) : Option ℕ :=
  match s with
  | [] => none
  | _ => some (s.foldl (fun acc c => 10 * acc + (c.toNat - 48)) 0)

/-- What `animateNum(el)` fixes before the first frame. -/
structure CounterAnim where
  /-- The value `el.textContent.trim()`. -/
  original : String
  /-- The value of `parseInt` on `original` with every non-digit removed. -/
  num : ℕ
  /-- Whether `original` includes a percent sign. -/
  hasPct : Bool
  /-- Whether `original` includes a plus sign. -/
  hasPlus : Bool
  deriving DecidableEq

/-- The body of `animateNum(el)` up to `if (!num) return;`: `none` when the
digits give `NaN` or `0` and nothing is animated. -/
def animateNum (textContent : String) : Option CounterAnim :=
  let original := trim textContent.toList
  match parseInt10 (original.filter Char.isDigit) with
  | none => none
  | some num =>
    if num = 0 then none
    else some ⟨String.mk original, num, original.contains '%', original.contains '+'⟩

/-- The line `const t = Math.min((now - START) / DURATION, 1);` -/
def stepT (START now : ℚ) : ℚ := min ((now - START) / DURATION) 1

/-- The line `const val = Math.floor(easeOut(t) * num);`, in exact arithmetic. -/
def stepVal (num : ℕ) (START now : ℚ) : ℤ := mathFloor (easeOut (stepT START now) * num)

/-- The string `val`, then a percent sign when `hasPct`, then a plus sign when
`hasPlus`. -/
def shown (a : CounterAnim) (val : ℤ) : String :=
  toString val ++ (if a.hasPct then "%" else "") ++ (if a.hasPlus then "+" else "")

/-- One call `step(now)`: the text of the element after the call, and whether it
requested another frame. -/
def step (a : CounterAnim) (START now : ℚ) : String × Bool :=
  if stepT START now < 1 then (shown a (stepVal a.num START now), true)
  else (a.original, false)

/-- The calls of `step` for the frame timestamps `nows`, in order, until one
does not request another frame: the `val` of each call and the text it leaves. -/
def runSteps (a : CounterAnim) (START : ℚ) : List ℚ → List (ℤ × String)
  | [] => []
  | now :: rest =>
    (stepVal a.num START now, (step a START now).1) ::
      (if (step a START now).2 then runSteps a START rest else [])

/-! ## 11. Custom cursor (`script.js` lines 443–485) -/

/-- The six variables of `initCursor`. -/
structure CursorState where
  mouseX : ℚ
  mouseY : ℚ
  dotX : ℚ
  dotY : ℚ
  ringX : ℚ
  ringY : ℚ
  deriving DecidableEq

/-- The state at `initCursor`: everything at `-100`. -/
def CursorState.initial : CursorState := ⟨-100, -100, -100, -100, -100, -100⟩

/-- The `mousemove` listener. -/
def mousemove (s : CursorState) (clientX clientY : ℚ) : CursorState :=
  { s with mouseX := clientX, mouseY := clientY }

/-- One frame of `animate()`. -/
def animate (s : CursorState) : CursorState :=
  { s with
    dotX := s.dotX + (s.mouseX - s.dotX) * 0.3
    dotY := s.dotY + (s.mouseY - s.dotY) * 0.3
    ringX := s.ringX + (s.mouseX - s.ringX) * 0.15
    ringY := s.ringY + (s.mouseY - s.ringY) * 0.15 }

/-- Dot and ring both at `(x, y)`. -/
def CursorState.shared (x y : ℚ) : CursorState := ⟨x, y, x, y, x, y⟩

/-- The states after each frame when the raw pointer is at `raws[k]` during
frame `k`: the pointer moves, then `animate()` runs. -/
def cursorFrames (s : CursorState) : List (ℚ × ℚ) → List CursorState
  | [] => []
  | raw :: rest =>
    animate (mousemove s raw.1 raw.2) :: cursorFrames (animate (mousemove s raw.1 raw.2)) rest

/-- Squared distance of the dot to the raw pointer. -/
def CursorState.dotDistSq (s : CursorState) : ℚ :=
  (s.mouseX - s.dotX) ^ 2 + (s.mouseY - s.dotY) ^ 2

/-- Squared distance of the ring to the raw pointer. -/
def CursorState.ringDistSq (s : CursorState) : ℚ :=
  (s.mouseX - s.ringX) ^ 2 + (s.mouseY - s.ringY) ^ 2

/-- The integer `x` lies between `a` and `b`, whichever is larger. -/
def Between (a b x : ℤ) : Prop := min a b ≤ x ∧ x ≤ max a b

/-- Every channel of `c` lies between the matching channels of `a` and `b`. -/
def RGB.Between (a b c : RGB) : Prop :=
  CKRStudios.Between a.r b.r c.r ∧ CKRStudios.Between a.g b.g c.g ∧ CKRStudios.Between a.b b.b c.b

/-- The adjacent pairs `(rgbStops[i], rgbStops[i + 1])` the loop visits. -/
def adjacent (l : List RgbStop) : List (RgbStop × RgbStop) := l.zip l.tail

/-- Positions strictly increase along the list. -/
def StrictlyIncreasing (l : List RgbStop) : Prop := l.Pairwise (fun a b => a.pct < b.pct)

/-- The new channel value is no further from `t` than `x` and on the same side
of it. -/
def Approaches (t x x' : ℤ) : Prop :=
  |x' - t| ≤ |x - t| ∧ (x ≤ t → x ≤ x' ∧ x' ≤ t) ∧ (t ≤ x → t ≤ x' ∧ x' ≤ x)

/-! ## 06–07. Visibility triggers (`script.js` lines 283–297, 329–335, 490–538) -/

/-- A page element with what the selectors of the script see of it. -/
structure Element where
  /-- Identity of the DOM node. -/
  id : ℕ
  /-- Carries the class `reveal-scroll` in the markup. -/
  revealInMarkup : Bool
  /-- Matched by one of the selectors of `revealTargets`. -/
  revealTarget : Bool
  /-- Carries the class `stat-num`. -/
  statNum : Bool
  deriving DecidableEq

/-- The two one-shot actions: adding the class `in` to `entry.target`, and
`animateNum(e.target)`. -/
inductive Trigger where
  | reveal
  | counter
  deriving DecidableEq

/-- The three `IntersectionObserver`s the program can create: the one of the
first `initScrollReveal()`, the one of `initCounters()`, and the one of the second
`initScrollReveal()`. -/
inductive ObserverId where
  | reveal1
  | counters
  | reveal2
  deriving DecidableEq

/-- The targets each observer still observes (an observer that was not created
because its element list was empty observes nothing), and the actions executed
so far, oldest first. -/
structure TriggerState where
  reveal1 : List Element
  counters : List Element
  reveal2 : List Element
  log : List (Trigger × Element)
  deriving DecidableEq

/-- The function `initScrollReveal()`: it queries the elements carrying
`reveal-scroll` at the time of the call (`hasClass`) and observes each with a
new observer; the result is the target list of that observer. -/
def initScrollReveal (page : List Element) (hasClass : Element → Bool) : List Element :=
  page.filter hasClass

/-- The function `initCounters()`: it queries the `stat-num` elements and observes
each with a new observer; the result is the target list of that observer. -/
def initCounters (page : List Element) : List Element :=
  page.filter fun e => e.statNum

/-- The `DOMContentLoaded` handler of `init`, as far as the observers go:
`initScrollReveal()`, `initCounters()`, the loop adding `reveal-scroll` to the
elements matched by `revealTargets`, then `initScrollReveal()` again. -/
def init (page : List Element) : TriggerState :=
  { reveal1 := initScrollReveal page fun e => e.revealInMarkup
    counters := initCounters page
    reveal2 := initScrollReveal page fun e => e.revealInMarkup || e.revealTarget
    log := [] }

/-- An `IntersectionObserverEntry` together with the observer that reports it. -/
structure IntersectionEvent where
  observer : ObserverId
  target : Element
  isIntersecting : Bool
  deriving DecidableEq

/-- The body of both observer callbacks for one entry of an observer with
targets `targets`: when the entry is intersecting, run the action and
`unobserve` the target. An observer reports only targets it observes. -/
def callback (action : Trigger) (targets : List Element) (log : List (Trigger × Element))
    (ev : IntersectionEvent) : List Element × List (Trigger × Element) :=
  if ev.target ∈ targets ∧ ev.isIntersecting = true then
    (targets.filter (fun x => x ≠ ev.target), log ++ [(action, ev.target)])
  else (targets, log)

/-- Delivery of one intersection event to the callback of its observer. -/
def deliver (st : TriggerState) (ev : IntersectionEvent) : TriggerState :=
  match ev.observer with
  | .reveal1 =>
    { st with reveal1 := (callback .reveal st.reveal1 st.log ev).1
              log := (callback .reveal st.reveal1 st.log ev).2 }
  | .counters =>
    { st with counters := (callback .counter st.counters st.log ev).1
              log := (callback .counter st.counters st.log ev).2 }
  | .reveal2 =>
    { st with reveal2 := (callback .reveal st.reveal2 st.log ev).1
              log := (callback .reveal st.reveal2 st.log ev).2 }

/-- The trigger state after initialisation on `page` and the events `events`. -/
def runEvents (page : List Element) (events : List IntersectionEvent) : TriggerState :=
  events.foldl deliver (init page)

/-- How many times action `t` was executed for `el`. -/
def fired (st : TriggerState) (t : Trigger) (el : Element) : ℕ := st.log.count (t, el)

/-- Successive frames of the background `update()`, the page being scrolled to
`scrollYs[k]` during frame `k`: the final `currentBgRgb`. -/
def updateFrames (rgbStops : List RgbStop) (scrollHeight innerHeight : ℚ) :
    List ℚ → RGB → Option RGB
  | [], current => some current
  | scrollY :: rest, current =>
    match update rgbStops scrollY scrollHeight innerHeight current with
    | some next => updateFrames rgbStops scrollHeight innerHeight rest next
    | none => none

/-- The smoothing step on one channel, in integer arithmetic. -/
def smoothChannel (x t : ℤ) : ℤ := (88 * x + 12 * t + 50) / 100

/-- The frame smoothing step repeated `n` times, in integer arithmetic. -/
def smoothFramesInt (target : RGB) : ℕ → RGB → RGB
  | 0, current => current
  | n + 1, current =>
    smoothFramesInt target n
      ⟨smoothChannel current.r target.r, smoothChannel current.g target.g,
        smoothChannel current.b target.b⟩

/-- Every channel of `c` is within `D` of the target. -/
def Within (target c : RGB) (D : ℚ) : Prop :=
  |((c.r - target.r : ℤ) : ℚ)| ≤ D ∧ |((c.g - target.g : ℤ) : ℚ)| ≤ D ∧
    |((c.b - target.b : ℤ) : ℚ)| ≤ D

/-- The coordinate sequence `l`, entered from `x`, never reverses direction. -/
def MonotoneFrom (x : ℚ) (l : List ℚ) : Prop :=
  List.Chain (fun a b => a ≤ b) x l ∨ List.Chain (fun a b => b ≤ a) x l

/-- The curve as the specification words it:
`floor((1 - (1 - t)^3) * magnitude)` with the elapsed fraction `t` clamped to
`[0, 1]`. -/
def displayedSpec (n : ℕ) (START now : ℚ) : ℤ :=
  ⌊(1 - (1 - max 0 (min ((now - START) / 1700) 1)) ^ 3) * (n : ℚ)⌋

/-- Number of observers of action `t` still observing `el`. -/
def pending (st : TriggerState) (t : Trigger) (el : Element) : ℕ :=
  match t with
  | .reveal => (if el ∈ st.reveal1 then 1 else 0) + (if el ∈ st.reveal2 then 1 else 0)
  | .counter => if el ∈ st.counters then 1 else 0

/-! ## Theorems -/

set_option maxRecDepth 100000

theorem mathRound_intCast (n : ℤ) : mathRound (n : ℚ) = n := by
  unfold mathRound
  rw [Int.floor_eq_iff]
  constructor <;> linarith

theorem mathRound_mem (lo hi : ℤ) (x : ℚ) (h1 : (lo : ℚ) ≤ x) (h2 : x ≤ hi) :
    lo ≤ mathRound x ∧ mathRound x ≤ hi := by
  unfold mathRound
  constructor
  · exact Int.le_floor.mpr (by linarith)
  · have : ⌊x + 1 / 2⌋ < hi + 1 := Int.floor_lt.mpr (by push_cast; linarith)
    omega

theorem lerp_between {a b t : ℚ} (h0 : 0 ≤ t) (h1 : t ≤ 1) :
    min a b ≤ lerp a b t ∧ lerp a b t ≤ max a b := by
  unfold lerp
  rcases le_total a b with h | h
  · rw [min_eq_left h, max_eq_right h]
    constructor <;> nlinarith
  · rw [min_eq_right h, max_eq_left h]
    constructor <;> nlinarith

theorem mathRound_lerp_between (a b : ℤ) {t : ℚ} (h0 : 0 ≤ t) (h1 : t ≤ 1) :
    Between a b (mathRound (lerp a b t)) := by
  have h := lerp_between (a := (a : ℚ)) (b := (b : ℚ)) h0 h1
  have := mathRound_mem (min a b) (max a b) (lerp a b t)
    (by push_cast; exact h.1) (by push_cast; exact h.2)
  exact this

theorem lerpColor_between (a b : RGB) {t : ℚ} (h0 : 0 ≤ t) (h1 : t ≤ 1) :
    RGB.Between a b (lerpColor a b t) :=
  ⟨mathRound_lerp_between _ _ h0 h1, mathRound_lerp_between _ _ h0 h1,
    mathRound_lerp_between _ _ h0 h1⟩

theorem lerpColor_zero (a b : RGB) : lerpColor a b 0 = a := by
  cases a; cases b
  simp [lerpColor, lerp, mathRound_intCast]

theorem lerpColor_one (a b : RGB) : lerpColor a b 1 = b := by
  cases a; cases b
  simp [lerpColor, lerp, mathRound_intCast]

theorem invLerp_fin {a b : ℚ} (h : a < b) (v : ℚ) :
    invLerp a b v = .fin (min (max ((v - a) / (b - a)) 0) 1) := by
  have hne : b - a ≠ 0 := by linarith
  simp [invLerp, clamp, jsDiv, hne, mathMax, mathMin]

theorem rgbStops_eq : rgbStops =
    [ ⟨0.00, ⟨255, 255, 255⟩⟩, ⟨0.12, ⟨245, 244, 242⟩⟩, ⟨0.22, ⟨232, 229, 223⟩⟩,
      ⟨0.32, ⟨192, 187, 176⟩⟩, ⟨0.43, ⟨110, 104, 96⟩⟩, ⟨0.52, ⟨26, 23, 20⟩⟩,
      ⟨0.60, ⟨8, 7, 6⟩⟩, ⟨0.68, ⟨10, 9, 8⟩⟩, ⟨0.76, ⟨28, 26, 22⟩⟩, ⟨0.83, ⟨90, 84, 72⟩⟩,
      ⟨0.90, ⟨196, 190, 180⟩⟩, ⟨0.95, ⟨234, 231, 225⟩⟩, ⟨1.00, ⟨255, 255, 255⟩⟩ ] := by
  rfl

theorem rgbStops_strictlyIncreasing : StrictlyIncreasing rgbStops := by
  rw [rgbStops_eq]
  simp only [StrictlyIncreasing, List.pairwise_cons, List.mem_cons, forall_eq_or_imp]
  norm_num

theorem between_left (a b : ℤ) : Between a b a := ⟨min_le_left _ _, le_max_left _ _⟩
theorem between_right (a b : ℤ) : Between a b b := ⟨min_le_right _ _, le_max_right _ _⟩

theorem scanStops_spec (f : ℚ) : ∀ (l : List RgbStop) (a : RgbStop),
    StrictlyIncreasing (a :: l) → l ≠ [] → a.pct ≤ f →
    (∀ z, (a :: l).getLast? = some z → f ≤ z.pct) →
    ∃ c, scanStops (a :: l) f = some (.rgb c) ∧
      (∃ p ∈ adjacent (a :: l), p.1.pct ≤ f ∧ f ≤ p.2.pct ∧ RGB.Between p.1.rgb p.2.rgb c) ∧
      (∀ p ∈ adjacent (a :: l), p.1.pct ≤ f → f ≤ p.2.pct → RGB.Between p.1.rgb p.2.rgb c) := by
  intro l
  induction l with
  | nil => intro a _ h; exact absurd rfl h
  | cons b rest ih =>
    intro a hs _ haf hlast
    have hab : a.pct < b.pct := (List.pairwise_cons.mp hs).1 b (List.mem_cons_self _ _)
    have hs2 : StrictlyIncreasing (b :: rest) := (List.pairwise_cons.mp hs).2
    by_cases hfb : f ≤ b.pct
    · have ht0 : (0 : ℚ) ≤ min (max ((f - a.pct) / (b.pct - a.pct)) 0) 1 :=
        le_min (le_max_right _ _) zero_le_one
      have ht1 : min (max ((f - a.pct) / (b.pct - a.pct)) 0) 1 ≤ (1 : ℚ) := min_le_right _ _
      refine ⟨lerpColor a.rgb b.rgb (min (max ((f - a.pct) / (b.pct - a.pct)) 0) 1), ?_, ?_, ?_⟩
      · simp [scanStops, haf, hfb, invLerp_fin hab]
      · exact ⟨(a, b), by simp [adjacent], haf, hfb, lerpColor_between _ _ ht0 ht1⟩
      · intro p hp h1 h2
        simp only [adjacent, List.tail_cons, List.zip_cons_cons, List.mem_cons] at hp
        rcases hp with rfl | hp
        · exact lerpColor_between _ _ ht0 ht1
        · have hp1 : p.1 ∈ b :: rest := (List.of_mem_zip (a := p.1) (b := p.2) hp).1
          have hbp : b.pct ≤ p.1.pct := by
            rcases List.mem_cons.mp hp1 with h | h
            · rw [h]
            · exact le_of_lt ((List.pairwise_cons.mp hs2).1 _ h)
          have hfeq : f = b.pct := le_antisymm hfb (le_trans hbp h1)
          have hp1b : p.1 = b := by
            rcases List.mem_cons.mp hp1 with h | h
            · exact h
            · exact absurd ((List.pairwise_cons.mp hs2).1 _ h) (by rw [← hfeq]; exact not_lt.mpr h1)
          have hq : (f - a.pct) / (b.pct - a.pct) = 1 := by
            rw [hfeq]; exact div_self (by linarith)
          rw [hq]
          norm_num
          rw [lerpColor_one, hp1b]
          exact ⟨between_left _ _, between_left _ _, between_left _ _⟩
    · have hbf : b.pct ≤ f := le_of_lt (not_le.mp hfb)
      have hrest : rest ≠ [] := by
        rintro rfl
        exact hfb (hlast b (by simp))
      have hlast2 : ∀ z, (b :: rest).getLast? = some z → f ≤ z.pct := by
        intro z hz
        apply hlast z
        rw [List.getLast?_cons_cons]; exact hz
      obtain ⟨c, hc, hex, hall⟩ := ih b hs2 hrest hbf hlast2
      refine ⟨c, ?_, ?_, ?_⟩
      · simp only [scanStops]
        rw [if_neg (by intro h; exact hfb h.2)]
        exact hc
      · obtain ⟨p, hp, h⟩ := hex
        exact ⟨p, by simp only [adjacent, List.tail_cons, List.zip_cons_cons]; exact List.mem_cons_of_mem _ hp, h⟩
      · intro p hp h1 h2
        simp only [adjacent, List.tail_cons, List.zip_cons_cons, List.mem_cons] at hp
        rcases hp with rfl | hp
        · exact absurd h2 hfb
        · exact hall p hp h1 h2

theorem scanStops_last : ∀ (l : List RgbStop) (a z : RgbStop),
    StrictlyIncreasing (a :: l) → l ≠ [] → (a :: l).getLast? = some z →
    scanStops (a :: l) z.pct = some (.rgb z.rgb) := by
  intro l
  induction l with
  | nil => intro a z _ h; exact absurd rfl h
  | cons b rest ih =>
    intro a z hs _ hz
    have hab : a.pct < b.pct := (List.pairwise_cons.mp hs).1 b (List.mem_cons_self _ _)
    have hs2 : StrictlyIncreasing (b :: rest) := (List.pairwise_cons.mp hs).2
    rw [List.getLast?_cons_cons] at hz
    cases rest with
    | nil =>
      simp at hz
      subst hz
      have hq : (b.pct - a.pct) / (b.pct - a.pct) = 1 := div_self (by linarith)
      simp [scanStops, le_of_lt hab, invLerp_fin hab, hq, lerpColor_one]
    | cons d rest2 =>
      have hzmem : z ∈ d :: rest2 := by
        exact List.mem_of_getLast?_eq_some hz
      have hbz : b.pct < z.pct := (List.pairwise_cons.mp hs2).1 z hzmem
      simp only [scanStops]
      rw [if_neg (by intro h; exact absurd h.2 (not_le.mpr hbz))]
      exact ih b z hs2 (by simp) hz

/-- Claim C1: for a stop list with strictly increasing positions running from 0
to 1 and a fraction `f` in `[0,1]`, `getColorAtScroll` returns an integer
triple; some adjacent pair of stops brackets `f`, and for every adjacent pair
bracketing `f` each channel of the result lies between the channels of the
pair. At `0` the result is the colour of the first stop, at `1` that of the
last. -/
theorem getColorAtScroll_within_neighbours (l : List RgbStop) (f : ℚ)
    (hs : StrictlyIncreasing l)
    (hfirst : l.head?.map (·.pct) = some 0) (hlast : l.getLast?.map (·.pct) = some 1)
    (hf0 : 0 ≤ f) (hf1 : f ≤ 1) :
    (∃ c, getColorAtScroll l f = .rgb c ∧
      (∃ p ∈ adjacent l, p.1.pct ≤ f ∧ f ≤ p.2.pct ∧ RGB.Between p.1.rgb p.2.rgb c) ∧
      (∀ p ∈ adjacent l, p.1.pct ≤ f → f ≤ p.2.pct → RGB.Between p.1.rgb p.2.rgb c)) ∧
    (∃ a, l.head? = some a ∧ getColorAtScroll l 0 = .rgb a.rgb) ∧
    (∃ z, l.getLast? = some z ∧ getColorAtScroll l 1 = .rgb z.rgb) := by
  cases l with
  | nil => simp at hfirst
  | cons a l =>
    have ha : a.pct = 0 := by simpa using hfirst
    obtain ⟨z, hz, hz1⟩ : ∃ z, (a :: l).getLast? = some z ∧ z.pct = 1 := by
      cases h : (a :: l).getLast? with
      | none => rw [h] at hlast; simp at hlast
      | some z => rw [h] at hlast; exact ⟨z, rfl, by simpa using hlast⟩
    have hne : l ≠ [] := by
      rintro rfl
      simp at hz
      rw [hz, hz1] at ha
      exact one_ne_zero ha
    refine ⟨?_, ⟨a, rfl, ?_⟩, ⟨z, hz, ?_⟩⟩
    · obtain ⟨c, hc, hex, hall⟩ := scanStops_spec f l a hs hne (by rw [ha]; exact hf0)
        (by intro w hw; rw [hz] at hw; cases hw; rw [hz1]; exact hf1)
      exact ⟨c, by simp [getColorAtScroll, hc], hex, hall⟩
    · cases l with
      | nil => exact absurd rfl hne
      | cons b rest =>
        have hab : a.pct < b.pct := (List.pairwise_cons.mp hs).1 b (List.mem_cons_self _ _)
        have hb : 0 ≤ b.pct := by rw [← ha]; exact le_of_lt hab
        have hi : invLerp a.pct b.pct 0 = .fin 0 := by
          rw [invLerp_fin hab, ha]; simp
        simp only [getColorAtScroll, scanStops]
        rw [if_pos ⟨by rw [ha], hb⟩, hi]
        simp only [lerpColor_zero]
    · have h := scanStops_last l a z hs hne hz
      rw [hz1] at h
      simp [getColorAtScroll, h]

/-- Claim C1 at the hard-coded thirteen stops and the fraction `1/2`. -/
theorem getColorAtScroll_within_neighbours_witness :
    StrictlyIncreasing rgbStops ∧ rgbStops.head?.map (·.pct) = some 0 ∧
    rgbStops.getLast?.map (·.pct) = some 1 ∧
    ((∃ c, getColorAtScroll rgbStops (1 / 2) = .rgb c ∧
      (∃ p ∈ adjacent rgbStops,
        p.1.pct ≤ 1 / 2 ∧ 1 / 2 ≤ p.2.pct ∧ RGB.Between p.1.rgb p.2.rgb c) ∧
      (∀ p ∈ adjacent rgbStops,
        p.1.pct ≤ 1 / 2 → 1 / 2 ≤ p.2.pct → RGB.Between p.1.rgb p.2.rgb c)) ∧
    (∃ a, rgbStops.head? = some a ∧ getColorAtScroll rgbStops 0 = .rgb a.rgb) ∧
    (∃ z, rgbStops.getLast? = some z ∧ getColorAtScroll rgbStops 1 = .rgb z.rgb)) :=
  ⟨rgbStops_strictlyIncreasing, by rw [rgbStops_eq]; norm_num, by rw [rgbStops_eq]; norm_num,
    getColorAtScroll_within_neighbours rgbStops (1 / 2) rgbStops_strictlyIncreasing
      (by rw [rgbStops_eq]; norm_num) (by rw [rgbStops_eq]; norm_num)
      (by norm_num) (by norm_num)⟩

/-- Below the first position no pair matches, whatever the order of the rest. -/
theorem scanStops_below : ∀ (l : List RgbStop) (f : ℚ), (∀ s ∈ l, f < s.pct) →
    scanStops l f = none := by
  intro l
  induction l with
  | nil => intro f _; rfl
  | cons a l ih =>
    intro f h
    cases l with
    | nil => rfl
    | cons b rest =>
      simp only [scanStops]
      rw [if_neg (by intro hc; exact absurd hc.1 (not_le.mpr (h a (List.mem_cons_self _ _))))]
      exact ih f (fun s hs => h s (List.mem_cons_of_mem _ hs))

/-- Above the last position of an ascending list no pair matches. -/
theorem scanStops_above : ∀ (l : List RgbStop) (f : ℚ), (∀ s ∈ l, s.pct < f) →
    scanStops l f = none := by
  intro l
  induction l with
  | nil => intro f _; rfl
  | cons a l ih =>
    intro f h
    cases l with
    | nil => rfl
    | cons b rest =>
      simp only [scanStops]
      rw [if_neg (by
        intro hc
        exact absurd hc.2 (not_le.mpr (h b (List.mem_cons_of_mem _ (List.mem_cons_self _ _)))))]
      exact ih f (fun s hs => h s (List.mem_cons_of_mem _ hs))

/-- Above every position the lookup returns the colour of the last stop. -/
theorem getColorAtScroll_above_last (l : List RgbStop) (f : ℚ) (z : RgbStop)
    (h : ∀ s ∈ l, s.pct < f) (hz : l.getLast? = some z) :
    getColorAtScroll l f = .rgb z.rgb := by
  simp [getColorAtScroll, scanStops_above l f h, hz]

/-- Below every position the lookup also returns the colour of the last stop. -/
theorem getColorAtScroll_below_first (l : List RgbStop) (f : ℚ) (z : RgbStop)
    (h : ∀ s ∈ l, f < s.pct) (hz : l.getLast? = some z) :
    getColorAtScroll l f = .rgb z.rgb := by
  simp [getColorAtScroll, scanStops_below l f h, hz]

/-- Claim C5: with the stops `(0.2, black)` and `(1, white)`, the first boundary
stop missing, the fraction `0.1` lies below the first position; the loop
matches no pair and the fall-through returns the colour of the last stop,
white, not that of the nearest stop, black. -/
theorem getColorAtScroll_missing_first_stop :
    getColorAtScroll [⟨0.2, ⟨0, 0, 0⟩⟩, ⟨1, ⟨255, 255, 255⟩⟩] 0.1 = .rgb ⟨255, 255, 255⟩ ∧
    getColorAtScroll [⟨0.2, ⟨0, 0, 0⟩⟩, ⟨1, ⟨255, 255, 255⟩⟩] 0.1 ≠ .rgb ⟨0, 0, 0⟩ := by
  have h : getColorAtScroll [⟨0.2, ⟨0, 0, 0⟩⟩, ⟨1, ⟨255, 255, 255⟩⟩] 0.1
      = .rgb ⟨255, 255, 255⟩ :=
    getColorAtScroll_below_first _ _ ⟨1, ⟨255, 255, 255⟩⟩
      (by intro s hs; simp at hs; rcases hs with rfl | rfl <;> norm_num) rfl
  exact ⟨h, by rw [h]; decide⟩

theorem smoothing_bounds : (0 : ℚ) ≤ smoothing ∧ smoothing ≤ 1 := by
  unfold smoothing; constructor <;> norm_num

theorem approaches_of_between {t x x' : ℤ} (h : Between x t x') : Approaches t x x' := by
  obtain ⟨h1, h2⟩ := h
  rcases le_total x t with hxt | hxt
  · rw [min_eq_left hxt] at h1
    rw [max_eq_right hxt] at h2
    refine ⟨?_, fun _ => ⟨h1, h2⟩, fun ht => ?_⟩
    · rw [abs_of_nonpos (by omega), abs_of_nonpos (by omega)]; omega
    · constructor <;> omega
  · rw [min_eq_right hxt] at h1
    rw [max_eq_left hxt] at h2
    refine ⟨?_, fun ht => ?_, fun _ => ⟨h1, h2⟩⟩
    · rw [abs_of_nonneg (by omega), abs_of_nonneg (by omega)]; omega
    · constructor <;> omega

theorem smoothFrames_succ (target : RGB) : ∀ (n : ℕ) (current : RGB),
    smoothFrames target (n + 1) current
      = lerpColor (smoothFrames target n current) target smoothing := by
  intro n
  induction n with
  | zero => intro current; rfl
  | succ n ih =>
    intro current
    show smoothFrames target (n + 1) (lerpColor current target smoothing) = _
    rw [ih]
    rfl

/-- Claim C9: one smoothing step `lerpColor(current, target, 0.12)` leaves every
channel no further from the target and on the same side of it, for all integer
channels; hence under a fixed target the distance of each channel never grows
from one frame to the next. -/
theorem lerpColor_smoothing_never_moves_away (current target : RGB) :
    (Approaches target.r current.r (lerpColor current target smoothing).r ∧
      Approaches target.g current.g (lerpColor current target smoothing).g ∧
      Approaches target.b current.b (lerpColor current target smoothing).b) ∧
    ∀ n : ℕ,
      |(smoothFrames target (n + 1) current).r - target.r|
          ≤ |(smoothFrames target n current).r - target.r| ∧
      |(smoothFrames target (n + 1) current).g - target.g|
          ≤ |(smoothFrames target n current).g - target.g| ∧
      |(smoothFrames target (n + 1) current).b - target.b|
          ≤ |(smoothFrames target n current).b - target.b| := by
  have key : ∀ c : RGB, Approaches target.r c.r (lerpColor c target smoothing).r ∧
      Approaches target.g c.g (lerpColor c target smoothing).g ∧
      Approaches target.b c.b (lerpColor c target smoothing).b := by
    intro c
    obtain ⟨h1, h2, h3⟩ := lerpColor_between c target smoothing_bounds.1 smoothing_bounds.2
    exact ⟨approaches_of_between h1, approaches_of_between h2, approaches_of_between h3⟩
  refine ⟨key current, fun n => ?_⟩
  rw [smoothFrames_succ]
  obtain ⟨h1, h2, h3⟩ := key (smoothFrames target n current)
  exact ⟨h1.1, h2.1, h3.1⟩

theorem smoothFrames_fixed {target current : RGB}
    (h : lerpColor current target smoothing = current) :
    ∀ n : ℕ, smoothFrames target n current = current := by
  intro n
  induction n with
  | zero => rfl
  | succ n ih => rw [smoothFrames_succ, ih, h]

theorem lerpColor_stalls_251 :
    lerpColor ⟨251, 251, 251⟩ ⟨255, 255, 255⟩ smoothing = ⟨251, 251, 251⟩ := by
  simp only [lerpColor, lerp, mathRound, smoothing]
  norm_num [Int.floor_eq_iff]

theorem mathRound_lerp_smoothing (x t : ℤ) :
    mathRound (lerp x t smoothing) = smoothChannel x t := by
  unfold mathRound lerp smoothing smoothChannel
  have h : (x : ℚ) + ((t : ℚ) - x) * 0.12 + 1 / 2
      = ((88 * x + 12 * t + 50 : ℤ) : ℚ) / ((100 : ℕ) : ℚ) := by
    push_cast; ring
  rw [h, Rat.floor_intCast_div_natCast]
  rfl

theorem smoothFrames_eq_int (target : RGB) : ∀ (n : ℕ) (current : RGB),
    smoothFrames target n current = smoothFramesInt target n current := by
  intro n
  induction n with
  | zero => intro c; rfl
  | succ n ih =>
    intro c
    simp only [smoothFrames, smoothFramesInt, lerpColor, mathRound_lerp_smoothing]
    exact ih _

theorem getColorAtScroll_first (l : List RgbStop) (a b : RgbStop) (hab : a.pct < b.pct) :
    getColorAtScroll (a :: b :: l) a.pct = .rgb a.rgb := by
  have hi : invLerp a.pct b.pct a.pct = .fin 0 := by
    rw [invLerp_fin hab]; simp
  simp only [getColorAtScroll, scanStops]
  rw [if_pos ⟨le_rfl, le_of_lt hab⟩, hi]
  simp only [lerpColor_zero]

theorem getColorAtScroll_rgbStops_top : getColorAtScroll rgbStops 0 = .rgb ⟨255, 255, 255⟩ := by
  rw [rgbStops_eq]
  have h := getColorAtScroll_first
    [ ⟨0.22, ⟨232, 229, 223⟩⟩,
      ⟨0.32, ⟨192, 187, 176⟩⟩, ⟨0.43, ⟨110, 104, 96⟩⟩, ⟨0.52, ⟨26, 23, 20⟩⟩,
      ⟨0.60, ⟨8, 7, 6⟩⟩, ⟨0.68, ⟨10, 9, 8⟩⟩, ⟨0.76, ⟨28, 26, 22⟩⟩, ⟨0.83, ⟨90, 84, 72⟩⟩,
      ⟨0.90, ⟨196, 190, 180⟩⟩, ⟨0.95, ⟨234, 231, 225⟩⟩, ⟨1.00, ⟨255, 255, 255⟩⟩ ]
    ⟨0.00, ⟨255, 255, 255⟩⟩ ⟨0.12, ⟨245, 244, 242⟩⟩ (by norm_num)
  norm_num at h ⊢
  exact h

theorem getColorAtScroll_rgbStops_night :
    getColorAtScroll rgbStops (5200 / (10800 - 800)) = .rgb ⟨26, 23, 20⟩ := by
  rw [rgbStops_eq]
  simp only [getColorAtScroll, scanStops]
  norm_num [invLerp, clamp, jsDiv, mathMax, mathMin, lerpColor, lerp, mathRound]

theorem updateFrames_hold (l : List RgbStop) (scrollHeight innerHeight scrollY : ℚ)
    (target : RGB) (hpos : 0 < scrollHeight - innerHeight)
    (h : getColorAtScroll l (scrollY / (scrollHeight - innerHeight)) = .rgb target)
    (rest : List ℚ) : ∀ (n : ℕ) (current : RGB),
    updateFrames l scrollHeight innerHeight (List.replicate n scrollY ++ rest) current
      = updateFrames l scrollHeight innerHeight rest (smoothFrames target n current) := by
  intro n
  induction n with
  | zero => intro c; rfl
  | succ n ih =>
    intro c
    simp only [List.replicate_succ, List.cons_append, updateFrames, update, if_pos hpos, h,
      smoothFrames]
    exact ih _

theorem smoothFrames_to_night :
    smoothFrames ⟨26, 23, 20⟩ 60 ⟨255, 255, 255⟩ = ⟨30, 27, 24⟩ := by
  rw [smoothFrames_eq_int]; decide

theorem smoothFrames_back_to_white :
    smoothFrames ⟨255, 255, 255⟩ 60 ⟨30, 27, 24⟩ = ⟨251, 251, 251⟩ := by
  rw [smoothFrames_eq_int]; decide

theorem smoothFrames_stalled :
    smoothFrames ⟨255, 255, 255⟩ 50 ⟨251, 251, 251⟩ = ⟨251, 251, 251⟩ := by
  rw [smoothFrames_eq_int]; decide

/-- Claim C2: on a page 10800px tall in an 800px window, starting from the initial
white, 60 frames at `scrollY = 5200` followed by 60 frames back at the top leave
the background at `(251,251,251)`; the target there is `(255,255,255)` and fifty
further smoothing steps do not move it: every channel stays 4 away. -/
theorem background_stalls_short_of_target :
    updateFrames rgbStops 10800 800 (List.replicate 60 5200 ++ List.replicate 60 0)
      ⟨255, 255, 255⟩ = some ⟨251, 251, 251⟩ ∧
    getColorAtScroll rgbStops 0 = .rgb ⟨255, 255, 255⟩ ∧
    lerpColor ⟨251, 251, 251⟩ ⟨255, 255, 255⟩ smoothing = ⟨251, 251, 251⟩ ∧
    smoothFrames ⟨255, 255, 255⟩ 50 ⟨251, 251, 251⟩ = ⟨251, 251, 251⟩ ∧
    ¬ |(smoothFrames ⟨255, 255, 255⟩ 50 ⟨251, 251, 251⟩).r - 255| ≤ 1 := by
  refine ⟨?_, getColorAtScroll_rgbStops_top, ?_, smoothFrames_stalled, ?_⟩
  · rw [updateFrames_hold rgbStops 10800 800 5200 ⟨26, 23, 20⟩ (by norm_num)
      getColorAtScroll_rgbStops_night, smoothFrames_to_night]
    have h := updateFrames_hold rgbStops 10800 800 0 ⟨255, 255, 255⟩ (by norm_num)
      (by rw [zero_div]; exact getColorAtScroll_rgbStops_top) [] 60 ⟨30, 27, 24⟩
    rw [List.append_nil] at h
    rw [h, smoothFrames_back_to_white]
    rfl
  · simp only [lerpColor, mathRound_lerp_smoothing]; decide
  · rw [smoothFrames_stalled]; decide

theorem smoothChannel_bound (x t : ℤ) {D : ℚ} (h : |((x - t : ℤ) : ℚ)| ≤ D) :
    |((mathRound (lerp x t smoothing) - t : ℤ) : ℚ)| ≤ 22 / 25 * D + 1 / 2 := by
  have h1 : ((mathRound (lerp x t smoothing) : ℤ) : ℚ)
      ≤ (x : ℚ) + ((t : ℚ) - x) * 0.12 + 1 / 2 := Int.floor_le _
  have h2 : (x : ℚ) + ((t : ℚ) - x) * 0.12 + 1 / 2
      < (mathRound (lerp x t smoothing) : ℤ) + 1 := Int.lt_floor_add_one _
  generalize mathRound (lerp x t smoothing) = m at h1 h2 ⊢
  obtain ⟨h3, h4⟩ := abs_le.mp h
  push_cast at h3 h4 ⊢
  rw [abs_le]
  constructor <;> linarith

theorem lerpColor_within {target c : RGB} {D : ℚ} (h : Within target c D) :
    Within target (lerpColor c target smoothing) (22 / 25 * D + 1 / 2) :=
  ⟨smoothChannel_bound _ _ h.1, smoothChannel_bound _ _ h.2.1, smoothChannel_bound _ _ h.2.2⟩

theorem smoothFrames_within (target : RGB) : ∀ (n : ℕ) (c : RGB) (D : ℚ),
    Within target c D →
    Within target (smoothFrames target n c) ((22 / 25) ^ n * (D - 25 / 6) + 25 / 6) := by
  intro n
  induction n with
  | zero => intro c D h; simpa using h
  | succ n ih =>
    intro c D h
    have := ih _ _ (lerpColor_within h)
    have e : (22 / 25 : ℚ) ^ n * (22 / 25 * D + 1 / 2 - 25 / 6) + 25 / 6
        = (22 / 25) ^ (n + 1) * (D - 25 / 6) + 25 / 6 := by ring
    rw [e] at this
    exact this

theorem int_abs_le_four {z : ℤ} (h : |(z : ℚ)| < 5) : |z| ≤ 4 := by
  have h' : |z| < 5 := by exact_mod_cast h
  omega

/-- Fifty smoothing steps bring every channel within 4 of a fixed target. -/
theorem smoothFrames_fifty_within_four (current target : RGB)
    (hr : |current.r - target.r| ≤ 255) (hg : |current.g - target.g| ≤ 255)
    (hb : |current.b - target.b| ≤ 255) :
    |(smoothFrames target 50 current).r - target.r| ≤ 4 ∧
    |(smoothFrames target 50 current).g - target.g| ≤ 4 ∧
    |(smoothFrames target 50 current).b - target.b| ≤ 4 := by
  have h0 : Within target current 255 :=
    ⟨by exact_mod_cast hr, by exact_mod_cast hg, by exact_mod_cast hb⟩
  obtain ⟨h1, h2, h3⟩ := smoothFrames_within target 50 current 255 h0
  have hlt : (22 / 25 : ℚ) ^ 50 * (255 - 25 / 6) + 25 / 6 < 5 := by norm_num
  exact ⟨int_abs_le_four (lt_of_le_of_lt h1 hlt), int_abs_le_four (lt_of_le_of_lt h2 hlt),
    int_abs_le_four (lt_of_le_of_lt h3 hlt)⟩

theorem cursorFrames_counterexample_states :
    cursorFrames (CursorState.shared 0 0) [(10, 0), (0, 0)] =
      [⟨10, 0, 3, 0, 3 / 2, 0⟩, ⟨0, 0, 21 / 10, 0, 51 / 40, 0⟩] := by
  simp only [cursorFrames, animate, mousemove, CursorState.shared]
  norm_num

theorem cursorX_ascending : ∀ (raws : List (ℚ × ℚ)) (s : CursorState),
    List.Chain (fun a b => a ≤ b) s.mouseX (raws.map Prod.fst) →
    s.ringX ≤ s.dotX → s.dotX ≤ s.mouseX →
    ∀ t ∈ cursorFrames s raws, t.ringX ≤ t.dotX ∧ t.dotX ≤ t.mouseX := by
  intro raws
  induction raws with
  | nil => intro s _ _ _ t ht; simp [cursorFrames] at ht
  | cons raw rest ih =>
    intro s hc h1 h2 t ht
    simp only [List.map_cons, List.chain_cons] at hc
    have hr : s.ringX ≤ raw.1 := le_trans h1 (le_trans h2 hc.1)
    have hd : s.dotX ≤ raw.1 := le_trans h2 hc.1
    have g1 : (animate (mousemove s raw.1 raw.2)).ringX ≤ (animate (mousemove s raw.1 raw.2)).dotX := by
      simp only [animate, mousemove]; linarith
    have g2 : (animate (mousemove s raw.1 raw.2)).dotX ≤ (animate (mousemove s raw.1 raw.2)).mouseX := by
      simp only [animate, mousemove]; linarith
    simp only [cursorFrames, List.mem_cons] at ht
    rcases ht with rfl | ht
    · exact ⟨g1, g2⟩
    · exact ih _ (by simpa [animate, mousemove] using hc.2) g1 g2 t ht

theorem cursorX_descending : ∀ (raws : List (ℚ × ℚ)) (s : CursorState),
    List.Chain (fun a b => b ≤ a) s.mouseX (raws.map Prod.fst) →
    s.dotX ≤ s.ringX → s.mouseX ≤ s.dotX →
    ∀ t ∈ cursorFrames s raws, t.dotX ≤ t.ringX ∧ t.mouseX ≤ t.dotX := by
  intro raws
  induction raws with
  | nil => intro s _ _ _ t ht; simp [cursorFrames] at ht
  | cons raw rest ih =>
    intro s hc h1 h2 t ht
    simp only [List.map_cons, List.chain_cons] at hc
    have hr : raw.1 ≤ s.ringX := le_trans (le_trans hc.1 h2) h1
    have hd : raw.1 ≤ s.dotX := le_trans hc.1 h2
    have g1 : (animate (mousemove s raw.1 raw.2)).dotX ≤ (animate (mousemove s raw.1 raw.2)).ringX := by
      simp only [animate, mousemove]; linarith
    have g2 : (animate (mousemove s raw.1 raw.2)).mouseX ≤ (animate (mousemove s raw.1 raw.2)).dotX := by
      simp only [animate, mousemove]; linarith
    simp only [cursorFrames, List.mem_cons] at ht
    rcases ht with rfl | ht
    · exact ⟨g1, g2⟩
    · exact ih _ (by simpa [animate, mousemove] using hc.2) g1 g2 t ht

theorem cursorY_ascending : ∀ (raws : List (ℚ × ℚ)) (s : CursorState),
    List.Chain (fun a b => a ≤ b) s.mouseY (raws.map Prod.snd) →
    s.ringY ≤ s.dotY → s.dotY ≤ s.mouseY →
    ∀ t ∈ cursorFrames s raws, t.ringY ≤ t.dotY ∧ t.dotY ≤ t.mouseY := by
  intro raws
  induction raws with
  | nil => intro s _ _ _ t ht; simp [cursorFrames] at ht
  | cons raw rest ih =>
    intro s hc h1 h2 t ht
    simp only [List.map_cons, List.chain_cons] at hc
    have hr : s.ringY ≤ raw.2 := le_trans h1 (le_trans h2 hc.1)
    have hd : s.dotY ≤ raw.2 := le_trans h2 hc.1
    have g1 : (animate (mousemove s raw.1 raw.2)).ringY ≤ (animate (mousemove s raw.1 raw.2)).dotY := by
      simp only [animate, mousemove]; linarith
    have g2 : (animate (mousemove s raw.1 raw.2)).dotY ≤ (animate (mousemove s raw.1 raw.2)).mouseY := by
      simp only [animate, mousemove]; linarith
    simp only [cursorFrames, List.mem_cons] at ht
    rcases ht with rfl | ht
    · exact ⟨g1, g2⟩
    · exact ih _ (by simpa [animate, mousemove] using hc.2) g1 g2 t ht

theorem cursorY_descending : ∀ (raws : List (ℚ × ℚ)) (s : CursorState),
    List.Chain (fun a b => b ≤ a) s.mouseY (raws.map Prod.snd) →
    s.dotY ≤ s.ringY → s.mouseY ≤ s.dotY →
    ∀ t ∈ cursorFrames s raws, t.dotY ≤ t.ringY ∧ t.mouseY ≤ t.dotY := by
  intro raws
  induction raws with
  | nil => intro s _ _ _ t ht; simp [cursorFrames] at ht
  | cons raw rest ih =>
    intro s hc h1 h2 t ht
    simp only [List.map_cons, List.chain_cons] at hc
    have hr : raw.2 ≤ s.ringY := le_trans (le_trans hc.1 h2) h1
    have hd : raw.2 ≤ s.dotY := le_trans hc.1 h2
    have g1 : (animate (mousemove s raw.1 raw.2)).dotY ≤ (animate (mousemove s raw.1 raw.2)).ringY := by
      simp only [animate, mousemove]; linarith
    have g2 : (animate (mousemove s raw.1 raw.2)).mouseY ≤ (animate (mousemove s raw.1 raw.2)).dotY := by
      simp only [animate, mousemove]; linarith
    simp only [cursorFrames, List.mem_cons] at ht
    rcases ht with rfl | ht
    · exact ⟨g1, g2⟩
    · exact ih _ (by simpa [animate, mousemove] using hc.2) g1 g2 t ht

theorem abs_le_abs_of_between {m d r : ℚ} (h : (r ≤ d ∧ d ≤ m) ∨ (d ≤ r ∧ m ≤ d)) :
    |m - d| ≤ |m - r| := by
  rcases h with ⟨h1, h2⟩ | ⟨h1, h2⟩
  · rw [abs_of_nonneg (by linarith), abs_of_nonneg (by linarith)]; linarith
  · rw [abs_of_nonpos (by linarith), abs_of_nonpos (by linarith)]; linarith

/-- Claim C3, as stated, fails: after the pointer moves from `(0,0)` to
`(10,0)` and back to `(0,0)`, the ring (at `51/40`) is nearer the pointer than
the dot (at `21/10`). -/
theorem ring_lags_dot_counterexample :
    cursorFrames (CursorState.shared 0 0) [(10, 0), (0, 0)] =
      [⟨10, 0, 3, 0, 3 / 2, 0⟩, ⟨0, 0, 21 / 10, 0, 51 / 40, 0⟩] ∧
    CursorState.ringDistSq ⟨0, 0, 21 / 10, 0, 51 / 40, 0⟩
      < CursorState.dotDistSq ⟨0, 0, 21 / 10, 0, 51 / 40, 0⟩ ∧
    ¬ (|(0 : ℚ) - 21 / 10| ≤ |(0 : ℚ) - 51 / 40|) := by
  refine ⟨cursorFrames_counterexample_states, ?_, ?_⟩
  · simp only [CursorState.ringDistSq, CursorState.dotDistSq]; norm_num
  · norm_num [abs_of_nonpos]

/-- Claim C3 as amended: from a shared start, when the raw pointer never reverses
direction in either coordinate (in particular when it is held fixed), after every
frame the ring is at least as far from the current raw position as the dot, per
coordinate and in Euclidean distance. -/
theorem ring_lags_dot_monotone (x y : ℚ) (raws : List (ℚ × ℚ))
    (hx : MonotoneFrom x (raws.map Prod.fst)) (hy : MonotoneFrom y (raws.map Prod.snd)) :
    ∀ s ∈ cursorFrames (CursorState.shared x y) raws,
      |s.mouseX - s.dotX| ≤ |s.mouseX - s.ringX| ∧
      |s.mouseY - s.dotY| ≤ |s.mouseY - s.ringY| ∧
      s.dotDistSq ≤ s.ringDistSq := by
  intro s hs
  have hX : |s.mouseX - s.dotX| ≤ |s.mouseX - s.ringX| := by
    apply abs_le_abs_of_between
    rcases hx with h | h
    · exact Or.inl (cursorX_ascending raws (CursorState.shared x y) h le_rfl le_rfl s hs)
    · exact Or.inr (cursorX_descending raws (CursorState.shared x y) h le_rfl le_rfl s hs)
  have hY : |s.mouseY - s.dotY| ≤ |s.mouseY - s.ringY| := by
    apply abs_le_abs_of_between
    rcases hy with h | h
    · exact Or.inl (cursorY_ascending raws (CursorState.shared x y) h le_rfl le_rfl s hs)
    · exact Or.inr (cursorY_descending raws (CursorState.shared x y) h le_rfl le_rfl s hs)
  refine ⟨hX, hY, ?_⟩
  unfold CursorState.dotDistSq CursorState.ringDistSq
  have h1 := sq_le_sq.mpr hX
  have h2 := sq_le_sq.mpr hY
  linarith

/-- Claim C3 as amended, at the initial position `(-100,-100)` of the program and
a pointer moving to `(40,30)`, resting there, then moving on to `(250,60)`. -/
theorem ring_lags_dot_monotone_witness :
    MonotoneFrom (-100) ([(40, 30), (40, 30), (250, 60)].map Prod.fst) ∧
    MonotoneFrom (-100) ([(40, 30), (40, 30), (250, 60)].map Prod.snd) ∧
    ∀ s ∈ cursorFrames (CursorState.shared (-100) (-100)) [(40, 30), (40, 30), (250, 60)],
      |s.mouseX - s.dotX| ≤ |s.mouseX - s.ringX| ∧
      |s.mouseY - s.dotY| ≤ |s.mouseY - s.ringY| ∧
      s.dotDistSq ≤ s.ringDistSq :=
  ⟨Or.inl (by simp only [List.map_cons, List.map_nil, List.chain_cons]; norm_num),
    Or.inl (by simp only [List.map_cons, List.map_nil, List.chain_cons]; norm_num),
    ring_lags_dot_monotone (-100) (-100) [(40, 30), (40, 30), (250, 60)]
      (Or.inl (by simp only [List.map_cons, List.map_nil, List.chain_cons]; norm_num))
      (Or.inl (by simp only [List.map_cons, List.map_nil, List.chain_cons]; norm_num))⟩

theorem pct_of_scrollable_pos (g : TrackGeometry) (h : 0 < g.scrollable) :
    g.pct = .fin (min (max (g.scrolled / g.scrollable) 0) 1) := by
  have hne : g.scrollable ≠ 0 := ne_of_gt h
  simp [TrackGeometry.pct, clamp, jsDiv, hne, mathMax, mathMin]

/-- Claim C6: with `scrollable > 0` the progress is a finite number in `[0,1]`, `0` when
`scrolled ≤ 0` and `1` when `scrolled ≥ scrollable`; with `maxShift > 0` the
transform written is `translateX(-(pct * maxShift) px)`, the identity at
progress `0` and the full `maxShift` at progress `1`. -/
theorem horizontal_progress_mapping (g : TrackGeometry) (hasProgress : Bool)
    (style : TrackStyle) (h : 0 < g.scrollable) :
    ∃ p : ℚ, g.pct = .fin p ∧ 0 ≤ p ∧ p ≤ 1 ∧
      (g.scrolled ≤ 0 → p = 0) ∧ (g.scrollable ≤ g.scrolled → p = 1) ∧
      (0 < g.maxShift →
        (HorizontalScroll.update g hasProgress style).transform = some (.fin (p * g.maxShift)) ∧
        translation (HorizontalScroll.update g hasProgress style).transform
          = some (-(p * g.maxShift)) ∧
        (p = 0 → translation (HorizontalScroll.update g hasProgress style).transform = some 0) ∧
        (p = 1 → translation (HorizontalScroll.update g hasProgress style).transform
          = some (-g.maxShift))) := by
  refine ⟨min (max (g.scrolled / g.scrollable) 0) 1, pct_of_scrollable_pos g h,
    le_min (le_max_right _ _) zero_le_one, min_le_right _ _, ?_, ?_, ?_⟩
  · intro hs
    have : g.scrolled / g.scrollable ≤ 0 := div_nonpos_of_nonpos_of_nonneg hs (le_of_lt h)
    rw [max_eq_right this]
    exact min_eq_left zero_le_one
  · intro hs
    have : 1 ≤ g.scrolled / g.scrollable := (one_le_div h).mpr hs
    rw [max_eq_left (le_trans zero_le_one this)]
    exact min_eq_right this
  · intro hm
    have ht : (HorizontalScroll.update g hasProgress style).transform
        = some (.fin (min (max (g.scrolled / g.scrollable) 0) 1 * g.maxShift)) := by
      cases hasProgress <;>
        simp [HorizontalScroll.update, hm, pct_of_scrollable_pos g h, jsMul]
    refine ⟨ht, ?_, ?_, ?_⟩
    · rw [ht]; rfl
    · intro hp; rw [ht, hp]; simp [translation]
    · intro hp; rw [ht, hp]; simp [translation]

/-- Claim C6 at `sectionHeight = 2000`, `viewportHeight = 800`, `maxShift = 600`:
progress `0` and the identity translation at `scrolled = 0`, progress `1` and the
full `maxShift` at `scrolled = 1200`, progress `1` at `scrolled = 5000`. -/
theorem horizontal_progress_mapping_witness :
    (0 : ℚ) < TrackGeometry.scrollable ⟨-1200, 2000, 800, 1600, 1000, 0⟩ ∧
    TrackGeometry.pct ⟨0, 2000, 800, 1600, 1000, 0⟩ = .fin 0 ∧
    TrackGeometry.pct ⟨-1200, 2000, 800, 1600, 1000, 0⟩ = .fin 1 ∧
    TrackGeometry.pct ⟨-5000, 2000, 800, 1600, 1000, 0⟩ = .fin 1 ∧
    translation
      (HorizontalScroll.update ⟨0, 2000, 800, 1600, 1000, 0⟩ true ⟨none, none⟩).transform
      = some 0 ∧
    translation
      (HorizontalScroll.update ⟨-1200, 2000, 800, 1600, 1000, 0⟩ true ⟨none, none⟩).transform
      = some (-600) :=
  have h0 := horizontal_progress_mapping ⟨0, 2000, 800, 1600, 1000, 0⟩ true ⟨none, none⟩
    (by norm_num [TrackGeometry.scrollable])
  have h1 := horizontal_progress_mapping ⟨-1200, 2000, 800, 1600, 1000, 0⟩ true ⟨none, none⟩
    (by norm_num [TrackGeometry.scrollable])
  have h2 := horizontal_progress_mapping ⟨-5000, 2000, 800, 1600, 1000, 0⟩ true ⟨none, none⟩
    (by norm_num [TrackGeometry.scrollable])
  have hm : ∀ top : ℚ, (0 : ℚ) < TrackGeometry.maxShift ⟨top, 2000, 800, 1600, 1000, 0⟩ ∧
      TrackGeometry.maxShift ⟨top, 2000, 800, 1600, 1000, 0⟩ = 600 := fun top => by
    constructor <;> norm_num [TrackGeometry.maxShift]
  by
    obtain ⟨p0, e0, -, -, z0, -, t0⟩ := h0
    obtain ⟨p1, e1, -, -, -, o1, t1⟩ := h1
    obtain ⟨p2, e2, -, -, -, o2, -⟩ := h2
    have hp0 : p0 = 0 := z0 (by norm_num [TrackGeometry.scrolled])
    have hp1 : p1 = 1 := o1 (by norm_num [TrackGeometry.scrolled, TrackGeometry.scrollable])
    have hp2 : p2 = 1 := o2 (by norm_num [TrackGeometry.scrolled, TrackGeometry.scrollable])
    refine ⟨by norm_num [TrackGeometry.scrollable], by rw [e0, hp0], by rw [e1, hp1],
      by rw [e2, hp2], (t0 (hm 0).1).2.2.1 hp0, ?_⟩
    rw [((t1 (hm (-1200)).1).2.2.2 hp1), (hm (-1200)).2]

/-- Claim C4: the code has no guard on `scrollable`. With a section shorter than
the viewport (`scrollable = -300`, `scrolled = -100`) `update()` writes
`translateX(-200px)`; with `scrollable = 0` and `scrolled = 100` the quotient is
`100 / 0 = Infinity`, the progress clamps to `1` and the full `maxShift = 600` is
applied; with `scrollable = 0` and `scrolled = 0` the quotient `0 / 0` is `NaN`
and `NaN` is written as the offset. -/
theorem horizontal_update_degenerate_range :
    TrackGeometry.scrollable ⟨100, 500, 800, 1600, 1000, 0⟩ = -300 ∧
    TrackGeometry.maxShift ⟨100, 500, 800, 1600, 1000, 0⟩ = 600 ∧
    (HorizontalScroll.update ⟨100, 500, 800, 1600, 1000, 0⟩ false ⟨none, none⟩).transform
      = some (.fin 200) ∧
    TrackGeometry.scrollable ⟨-100, 800, 800, 1600, 1000, 0⟩ = 0 ∧
    jsDiv (TrackGeometry.scrolled ⟨-100, 800, 800, 1600, 1000, 0⟩)
      (TrackGeometry.scrollable ⟨-100, 800, 800, 1600, 1000, 0⟩) = .posInf ∧
    (HorizontalScroll.update ⟨-100, 800, 800, 1600, 1000, 0⟩ false ⟨none, none⟩).transform
      = some (.fin 600) ∧
    jsDiv (TrackGeometry.scrolled ⟨0, 800, 800, 1600, 1000, 0⟩)
      (TrackGeometry.scrollable ⟨0, 800, 800, 1600, 1000, 0⟩) = .nan ∧
    (HorizontalScroll.update ⟨0, 800, 800, 1600, 1000, 0⟩ false ⟨none, none⟩).transform
      = some .nan := by
  refine ⟨by norm_num [TrackGeometry.scrollable], by norm_num [TrackGeometry.maxShift], ?_,
    by norm_num [TrackGeometry.scrollable], ?_, ?_, ?_, ?_⟩
  · simp only [HorizontalScroll.update, TrackGeometry.maxShift, TrackGeometry.pct,
      TrackGeometry.scrolled, TrackGeometry.scrollable, clamp, jsDiv, mathMax, mathMin, jsMul]
    norm_num
  · simp only [TrackGeometry.scrolled, TrackGeometry.scrollable, jsDiv]
    norm_num
  · simp only [HorizontalScroll.update, TrackGeometry.maxShift, TrackGeometry.pct,
      TrackGeometry.scrolled, TrackGeometry.scrollable, clamp, jsDiv, mathMax, mathMin, jsMul]
    norm_num
  · simp only [TrackGeometry.scrolled, TrackGeometry.scrollable, jsDiv]
    norm_num
  · simp only [HorizontalScroll.update, TrackGeometry.maxShift, TrackGeometry.pct,
      TrackGeometry.scrolled, TrackGeometry.scrollable, clamp, jsDiv, mathMax, mathMin, jsMul]
    norm_num

theorem stepT_le_one (START now : ℚ) : stepT START now ≤ 1 := min_le_right _ _

theorem stepT_mono (START : ℚ) {now now' : ℚ} (h : now ≤ now') :
    stepT START now ≤ stepT START now' := by
  unfold stepT DURATION
  exact min_le_min (div_le_div_of_nonneg_right (by linarith) (by norm_num)) le_rfl

theorem stepT_eq_one {START now : ℚ} (h : START + DURATION ≤ now) : stepT START now = 1 := by
  unfold stepT
  apply min_eq_right
  unfold DURATION at *
  rw [le_div_iff₀ (by norm_num)]
  linarith

theorem stepT_nonneg {START now : ℚ} (h : START ≤ now) : 0 ≤ stepT START now := by
  unfold stepT DURATION
  exact le_min (div_nonneg (by linarith) (by norm_num)) zero_le_one

theorem cube_mono {a b : ℚ} (h : a ≤ b) : a ^ 3 ≤ b ^ 3 := by
  nlinarith [mul_nonneg (sub_nonneg.mpr h) (add_nonneg (sq_nonneg (a + b))
    (add_nonneg (sq_nonneg a) (sq_nonneg b)))]

theorem easeOut_mono {t u : ℚ} (h : t ≤ u) : easeOut t ≤ easeOut u := by
  unfold easeOut
  have := cube_mono (a := 1 - u) (b := 1 - t) (by linarith)
  linarith

theorem easeOut_le_one {t : ℚ} (h : t ≤ 1) : easeOut t ≤ 1 := by
  unfold easeOut
  have : 0 ≤ (1 - t) ^ 3 := pow_nonneg (by linarith) 3
  linarith

theorem easeOut_nonneg {t : ℚ} (h0 : 0 ≤ t) : 0 ≤ easeOut t := by
  have h := easeOut_mono h0
  simpa [easeOut] using h

theorem easeOut_one : easeOut 1 = 1 := by norm_num [easeOut]

theorem stepVal_mono (n : ℕ) (START : ℚ) {now now' : ℚ} (h : now ≤ now') :
    stepVal n START now ≤ stepVal n START now' := by
  unfold stepVal mathFloor
  exact Int.floor_mono
    (mul_le_mul_of_nonneg_right (easeOut_mono (stepT_mono START h)) (Nat.cast_nonneg n))

theorem stepVal_le (n : ℕ) (START now : ℚ) : stepVal n START now ≤ n := by
  unfold stepVal mathFloor
  have h : easeOut (stepT START now) * (n : ℚ) ≤ ((n : ℤ) : ℚ) := by
    have := mul_le_mul_of_nonneg_right (easeOut_le_one (stepT_le_one START now))
      (Nat.cast_nonneg (α := ℚ) n)
    simpa using this
  have := Int.floor_mono h
  simpa using this

theorem stepVal_of_done (n : ℕ) {START now : ℚ} (h : stepT START now = 1) :
    stepVal n START now = n := by
  unfold stepVal mathFloor
  rw [h, easeOut_one, one_mul]
  exact Int.floor_natCast n

theorem stepVal_nonneg (n : ℕ) {START now : ℚ} (h : START ≤ now) :
    0 ≤ stepVal n START now := by
  unfold stepVal mathFloor
  exact Int.floor_nonneg.mpr (mul_nonneg (easeOut_nonneg (stepT_nonneg h)) (Nat.cast_nonneg n))

theorem animateNum_num_pos {textContent : String} {a : CounterAnim}
    (h : animateNum textContent = some a) : 0 < a.num := by
  unfold animateNum at h
  simp only at h
  split at h
  · exact absurd h (by simp)
  · rename_i num _
    by_cases h0 : num = 0
    · simp [h0] at h
    · simp only [h0, if_false, Option.some.injEq] at h
      rw [← h]
      exact Nat.pos_of_ne_zero h0

theorem animateNum_original {textContent : String} {a : CounterAnim}
    (h : animateNum textContent = some a) :
    a.original = String.mk (trim textContent.toList) ∧
    parseInt10 (a.original.toList.filter Char.isDigit) = some a.num ∧
    a.hasPct = a.original.toList.contains '%' ∧
    a.hasPlus = a.original.toList.contains '+' := by
  unfold animateNum at h
  simp only at h
  split at h
  · exact absurd h (by simp)
  · rename_i num hnum
    by_cases h0 : num = 0
    · simp [h0] at h
    · simp only [h0, if_false, Option.some.injEq] at h
      rw [← h]
      exact ⟨rfl, hnum, rfl, rfl⟩

theorem runSteps_vals (a : CounterAnim) (START : ℚ) : ∀ (nows : List ℚ),
    ∀ p ∈ runSteps a START nows, ∃ now ∈ nows, p.1 = stepVal a.num START now := by
  intro nows
  induction nows with
  | nil => intro p hp; simp [runSteps] at hp
  | cons now rest ih =>
    intro p hp
    simp only [runSteps, List.mem_cons] at hp
    rcases hp with rfl | hp
    · exact ⟨now, List.mem_cons_self _ _, rfl⟩
    · split at hp
      · obtain ⟨w, hw, hpw⟩ := ih p hp
        exact ⟨w, List.mem_cons_of_mem _ hw, hpw⟩
      · simp at hp

theorem runSteps_sorted (a : CounterAnim) (START : ℚ) : ∀ (nows : List ℚ),
    nows.Pairwise (fun x y => x ≤ y) →
    ((runSteps a START nows).map Prod.fst).Pairwise (fun x y => x ≤ y) := by
  intro nows
  induction nows with
  | nil => intro _; simp [runSteps]
  | cons now rest ih =>
    intro h
    obtain ⟨h1, h2⟩ := List.pairwise_cons.mp h
    simp only [runSteps, List.map_cons]
    apply List.pairwise_cons.mpr
    constructor
    · intro v hv
      split at hv
      · obtain ⟨p, hp, rfl⟩ := List.mem_map.mp hv
        obtain ⟨w, hw, hpw⟩ := runSteps_vals a START rest p hp
        rw [hpw]
        exact stepVal_mono _ _ (h1 w hw)
      · simp at hv
    · split
      · exact ih h2
      · simp

theorem runSteps_last (a : CounterAnim) (START : ℚ) : ∀ (nows : List ℚ),
    (∃ now ∈ nows, START + DURATION ≤ now) →
    (runSteps a START nows).getLast? = some ((a.num : ℤ), a.original) := by
  intro nows
  induction nows with
  | nil => rintro ⟨w, hw, _⟩; simp at hw
  | cons now rest ih =>
    intro hex
    by_cases ht : stepT START now < 1
    · have hrest : ∃ w ∈ rest, START + DURATION ≤ w := by
        obtain ⟨w, hw, hwd⟩ := hex
        rcases List.mem_cons.mp hw with rfl | hw
        · rw [stepT_eq_one hwd] at ht
          exact absurd ht (lt_irrefl _)
        · exact ⟨w, hw, hwd⟩
      have h := ih hrest
      have hs : (step a START now).2 = true := by simp [step, ht]
      simp only [runSteps, hs, if_true]
      cases hr : runSteps a START rest with
      | nil => rw [hr] at h; simp at h
      | cons x xs => rw [hr] at h; rw [List.getLast?_cons_cons]; exact h
    · have h1 : stepT START now = 1 := le_antisymm (stepT_le_one _ _) (not_lt.mp ht)
      simp [runSteps, step, ht, stepVal_of_done a.num h1]

/-- Claim C7: the values `floor(easeOut(t) * n)` computed over non-decreasing frame
timestamps never exceed `n` and never decrease; a frame at or after
`START + 1700` computes exactly `n`, leaves the original text (whose digits
parse to `n` and whose suffix signs are the ones recorded) and requests no
further frame, and the run ends on it. -/
theorem counter_bounded_monotone (textContent : String) (a : CounterAnim) (START : ℚ)
    (nows : List ℚ) (ha : animateNum textContent = some a)
    (hsorted : nows.Pairwise (fun x y => x ≤ y)) :
    0 < a.num ∧
    (a.original = String.mk (trim textContent.toList) ∧
      parseInt10 (a.original.toList.filter Char.isDigit) = some a.num ∧
      a.hasPct = a.original.toList.contains '%' ∧
      a.hasPlus = a.original.toList.contains '+') ∧
    (∀ p ∈ runSteps a START nows, p.1 ≤ a.num) ∧
    ((runSteps a START nows).map Prod.fst).Pairwise (fun x y => x ≤ y) ∧
    (∀ now, START + DURATION ≤ now →
      stepVal a.num START now = a.num ∧ step a START now = (a.original, false)) ∧
    ((∃ now ∈ nows, START + DURATION ≤ now) →
      (runSteps a START nows).getLast? = some ((a.num : ℤ), a.original)) := by
  refine ⟨animateNum_num_pos ha, animateNum_original ha, ?_, runSteps_sorted a START nows hsorted,
    ?_, runSteps_last a START nows⟩
  · intro p hp
    obtain ⟨w, _, hpw⟩ := runSteps_vals a START nows p hp
    rw [hpw]
    exact stepVal_le _ _ _
  · intro now hnow
    have h1 := stepT_eq_one hnow
    exact ⟨stepVal_of_done _ h1, by simp [step, h1]⟩

theorem animateNum_250 : animateNum "250+" = some ⟨"250+", 250, false, true⟩ := by decide

/-- Claim C7 at the text `250+`, started at time 1000: the run ends on the value
250 and the text `250+`. -/
theorem counter_bounded_monotone_witness :
    animateNum "250+" = some ⟨"250+", 250, false, true⟩ ∧
    [(1000 : ℚ), 1100, 1500, 2000, 2699, 2700].Pairwise (fun x y => x ≤ y) ∧
    (∀ p ∈ runSteps ⟨"250+", 250, false, true⟩ 1000 [1000, 1100, 1500, 2000, 2699, 2700],
      p.1 ≤ (250 : ℕ)) ∧
    ((runSteps ⟨"250+", 250, false, true⟩ 1000 [1000, 1100, 1500, 2000, 2699, 2700]).map
      Prod.fst).Pairwise (fun x y => x ≤ y) ∧
    (runSteps ⟨"250+", 250, false, true⟩ 1000 [1000, 1100, 1500, 2000, 2699, 2700]).getLast?
      = some (((250 : ℕ) : ℤ), "250+") :=
  have h := counter_bounded_monotone "250+" ⟨"250+", 250, false, true⟩ 1000
    [1000, 1100, 1500, 2000, 2699, 2700] animateNum_250
    (by simp only [List.pairwise_cons, List.mem_cons]; norm_num)
  ⟨animateNum_250, by simp only [List.pairwise_cons, List.mem_cons]; norm_num,
    h.2.2.1, h.2.2.2.1,
    h.2.2.2.2.2 ⟨2700, by simp, by norm_num [DURATION]⟩⟩

theorem runSteps_250 :
    runSteps ⟨"250+", 250, false, true⟩ 1000 [1000, 1100, 1500, 2000, 2699, 2700, 2800] =
      [(0, "0+"), (41, "41+"), (162, "162+"), (232, "232+"), (249, "249+"), (250, "250+")] := by
  have e1 : stepT 1000 1000 = 0 := by norm_num [stepT, DURATION]
  have e2 : stepT 1000 1100 = 1 / 17 := by norm_num [stepT, DURATION]
  have e3 : stepT 1000 1500 = 5 / 17 := by norm_num [stepT, DURATION]
  have e4 : stepT 1000 2000 = 10 / 17 := by norm_num [stepT, DURATION]
  have e5 : stepT 1000 2699 = 1699 / 1700 := by norm_num [stepT, DURATION]
  have e6 : stepT 1000 2700 = 1 := by norm_num [stepT, DURATION]
  have v1 : stepVal 250 1000 1000 = 0 := by
    rw [stepVal, e1, mathFloor, Int.floor_eq_iff]; norm_num [easeOut]
  have v2 : stepVal 250 1000 1100 = 41 := by
    rw [stepVal, e2, mathFloor, Int.floor_eq_iff]; norm_num [easeOut]
  have v3 : stepVal 250 1000 1500 = 162 := by
    rw [stepVal, e3, mathFloor, Int.floor_eq_iff]; norm_num [easeOut]
  have v4 : stepVal 250 1000 2000 = 232 := by
    rw [stepVal, e4, mathFloor, Int.floor_eq_iff]; norm_num [easeOut]
  have v5 : stepVal 250 1000 2699 = 249 := by
    rw [stepVal, e5, mathFloor, Int.floor_eq_iff]; norm_num [easeOut]
  have v6 : stepVal 250 1000 2700 = 250 := by
    rw [stepVal, e6, mathFloor, Int.floor_eq_iff]; norm_num [easeOut]
  simp only [runSteps, step, e1, e2, e3, e4, e5, e6, v1, v2, v3, v4, v5, v6, shown]
  norm_num
  decide

/-- Claim C8 fails before `START`: with `n = 1`, `START = 1700` and `now = 0` the
elapsed fraction is `-1`, not clamped to `0`, and `step` writes `-7` where the
clamped curve gives `0`. -/
theorem step_unclamped_below_counterexample :
    stepT 1700 0 = -1 ∧ stepVal 1 1700 0 = -7 ∧ displayedSpec 1 1700 0 = 0 ∧
    ¬ (0 ≤ stepVal 1 1700 0) := by
  have e : stepT 1700 0 = -1 := by norm_num [stepT, DURATION]
  have v : stepVal 1 1700 0 = -7 := by
    rw [stepVal, e, mathFloor, Int.floor_eq_iff]; norm_num [easeOut]
  refine ⟨e, v, ?_, by rw [v]; decide⟩
  rw [displayedSpec, Int.floor_eq_iff]
  norm_num

theorem stepT_lt_one_iff (START now : ℚ) : stepT START now < 1 ↔ now < START + DURATION := by
  unfold stepT DURATION
  rw [min_lt_iff, div_lt_iff₀ (by norm_num)]
  constructor
  · rintro (h | h)
    · linarith
    · exact absurd h (lt_irrefl _)
  · intro h
    exact Or.inl (by linarith)

theorem stepVal_eq_displayedSpec (n : ℕ) {START now : ℚ} (h : START ≤ now) :
    stepVal n START now = displayedSpec n START now := by
  have h0 := stepT_nonneg h
  unfold stepT DURATION at h0
  unfold displayedSpec
  rw [max_eq_right h0]
  rfl

theorem stepVal_neg {n : ℕ} {START now : ℚ} (h : now < START) (hn : 0 < n) :
    stepVal n START now < 0 := by
  have ht : stepT START now < 0 := by
    unfold stepT DURATION
    exact lt_of_le_of_lt (min_le_left _ _) (div_neg_of_neg_of_pos (by linarith) (by norm_num))
  have he : easeOut (stepT START now) < 0 := by
    unfold easeOut
    have h1 : (1 : ℚ) < 1 - stepT START now := by linarith
    have h3 : (1 : ℚ) < (1 - stepT START now) ^ 3 := one_lt_pow₀ h1 (by norm_num)
    linarith
  unfold stepVal mathFloor
  rw [Int.floor_lt]
  have hq : (0 : ℚ) < (n : ℚ) := by exact_mod_cast hn
  simpa using mul_neg_of_neg_of_pos he hq

theorem displayedSpec_before_start (n : ℕ) {START now : ℚ} (h : now < START) :
    displayedSpec n START now = 0 := by
  have hneg : min ((now - START) / 1700) 1 ≤ 0 :=
    le_trans (min_le_left _ _) (le_of_lt (div_neg_of_neg_of_pos (by linarith) (by norm_num)))
  unfold displayedSpec
  rw [max_eq_left hneg]
  norm_num

/-- Claim C8 as amended, in exact rational arithmetic: the value computed by
`step(now)` never exceeds `n`. For `now ≥ START`, while fewer than 1700 ms have
elapsed `step` writes the clamped ease-out curve `floor((1 - (1 - t)^3) * n)`
followed by the suffix and requests another frame, afterwards it restores the
original text; the value is that curve and lies in `[0, n]`. For `now < START`
and `n > 0` the fraction is not clamped below: `step` writes a negative value
where the clamped curve gives `0`, and requests another frame. -/
theorem step_follows_easeOut (a : CounterAnim) (START now : ℚ) :
    stepVal a.num START now ≤ a.num ∧
    (START ≤ now →
      step a START now =
        (if now < START + DURATION then (shown a (displayedSpec a.num START now), true)
          else (a.original, false)) ∧
      stepVal a.num START now = displayedSpec a.num START now ∧
      0 ≤ displayedSpec a.num START now ∧ displayedSpec a.num START now ≤ a.num) ∧
    (now < START → 0 < a.num →
      step a START now = (shown a (stepVal a.num START now), true) ∧
      stepVal a.num START now < 0 ∧ displayedSpec a.num START now = 0) := by
  refine ⟨stepVal_le a.num START now, fun h => ?_, fun h hn => ?_⟩
  · have he := stepVal_eq_displayedSpec a.num h
    refine ⟨?_, he, ?_, ?_⟩
    · unfold step
      by_cases hlt : now < START + DURATION
      · rw [if_pos ((stepT_lt_one_iff START now).mpr hlt), if_pos hlt, he]
      · rw [if_neg (fun hc => hlt ((stepT_lt_one_iff START now).mp hc)), if_neg hlt]
    · rw [← he]; exact stepVal_nonneg a.num h
    · rw [← he]; exact stepVal_le a.num START now
  · refine ⟨?_, stepVal_neg h hn, displayedSpec_before_start a.num h⟩
    have hlt : stepT START now < 1 :=
      (stepT_lt_one_iff START now).mpr (by unfold DURATION; linarith)
    unfold step
    rw [if_pos hlt]

/-- Claim C8 as amended, for the counter `250+` started at time 1000: at
`now = 1500` the value written is the clamped curve, in `[0, 250]`; at
`now = 900`, before the start, the value written is negative. -/
theorem step_follows_easeOut_witness :
    (1000 : ℚ) ≤ 1500 ∧ (900 : ℚ) < 1000 ∧
    step ⟨"250+", 250, false, true⟩ 1000 1500
      = (shown ⟨"250+", 250, false, true⟩ (displayedSpec 250 1000 1500), true) ∧
    stepVal 250 1000 1500 = displayedSpec 250 1000 1500 ∧
    0 ≤ displayedSpec 250 1000 1500 ∧ displayedSpec 250 1000 1500 ≤ (250 : ℕ) ∧
    step ⟨"250+", 250, false, true⟩ 1000 900
      = (shown ⟨"250+", 250, false, true⟩ (stepVal 250 1000 900), true) ∧
    stepVal 250 1000 900 < 0 ∧ displayedSpec 250 1000 900 = 0 :=
  have h := (step_follows_easeOut ⟨"250+", 250, false, true⟩ 1000 1500).2.1 (by norm_num)
  have h2 := (step_follows_easeOut ⟨"250+", 250, false, true⟩ 1000 900).2.2
    (by norm_num) (by norm_num)
  ⟨by norm_num, by norm_num,
    by rw [h.1, if_pos (by norm_num [DURATION])], h.2.1, h.2.2.1, h.2.2.2,
    h2.1, h2.2.1, h2.2.2⟩

/-- Claim C10: an element carrying `reveal-scroll` in the markup is observed by the
observers of both `initScrollReveal()` calls; one intersecting event from each
executes the reveal action twice. -/
theorem reveal_fires_twice_for_markup_element :
    runEvents [⟨0, true, false, false⟩]
        [⟨.reveal1, ⟨0, true, false, false⟩, true⟩, ⟨.reveal2, ⟨0, true, false, false⟩, true⟩]
      = ⟨[], [], [], [(.reveal, ⟨0, true, false, false⟩), (.reveal, ⟨0, true, false, false⟩)]⟩ ∧
    fired (runEvents [⟨0, true, false, false⟩]
        [⟨.reveal1, ⟨0, true, false, false⟩, true⟩, ⟨.reveal2, ⟨0, true, false, false⟩, true⟩])
      .reveal ⟨0, true, false, false⟩ = 2 := by
  decide

theorem callback_spec (action : Trigger) (targets : List Element)
    (log : List (Trigger × Element)) (ev : IntersectionEvent) (t : Trigger) (el : Element) :
    (callback action targets log ev).2.count (t, el)
        + (if t = action ∧ el ∈ (callback action targets log ev).1 then 1 else 0)
      ≤ log.count (t, el) + (if t = action ∧ el ∈ targets then 1 else 0) ∧
    (el ∈ (callback action targets log ev).1 → el ∈ targets) ∧
    (t ≠ action → (callback action targets log ev).2.count (t, el) = log.count (t, el)) := by
  unfold callback
  by_cases h : ev.target ∈ targets ∧ ev.isIntersecting = true
  · rw [if_pos h]
    simp only [List.count_append, List.mem_filter]
    refine ⟨?_, fun hm => hm.1, ?_⟩
    · by_cases hte : (t, el) = (action, ev.target)
      · obtain ⟨rfl, rfl⟩ := Prod.mk.inj hte
        simp [h.1]
      · have hc : List.count (t, el) [(action, ev.target)] = 0 := by
          rw [List.count_eq_zero]
          simpa using hte
        rw [hc]
        split_ifs <;> simp_all
    · intro hne
      have hc : List.count (t, el) [(action, ev.target)] = 0 := by
        rw [List.count_eq_zero]
        simp [hne]
      rw [hc]; rfl
  · rw [if_neg h]
    exact ⟨le_rfl, id, fun _ => rfl⟩

theorem deliver_potential (st : TriggerState) (ev : IntersectionEvent) (t : Trigger)
    (el : Element) :
    fired (deliver st ev) t el + pending (deliver st ev) t el
      ≤ fired st t el + pending st t el := by
  unfold fired
  cases hobs : ev.observer <;> cases t <;> simp only [deliver, hobs, pending]
  · have h := (callback_spec .reveal st.reveal1 st.log ev .reveal el).1
    simp only [true_and] at h
    omega
  · have h := (callback_spec .reveal st.reveal1 st.log ev .counter el).2.2 (by decide)
    omega
  · have h := (callback_spec .counter st.counters st.log ev .reveal el).2.2 (by decide)
    omega
  · have h := (callback_spec .counter st.counters st.log ev .counter el).1
    simp only [true_and] at h
    omega
  · have h := (callback_spec .reveal st.reveal2 st.log ev .reveal el).1
    simp only [true_and] at h
    omega
  · have h := (callback_spec .reveal st.reveal2 st.log ev .counter el).2.2 (by decide)
    omega

theorem foldl_deliver_potential (t : Trigger) (el : Element) :
    ∀ (events : List IntersectionEvent) (st : TriggerState),
      fired (events.foldl deliver st) t el + pending (events.foldl deliver st) t el
        ≤ fired st t el + pending st t el := by
  intro events
  induction events with
  | nil => intro st; exact le_rfl
  | cons ev rest ih =>
    intro st
    exact le_trans (ih (deliver st ev)) (deliver_potential st ev t el)

/-- Whatever events arrive, the counter action runs at most once per element,
the reveal action at most once for an element that gets `reveal-scroll` only from
the class-adding loop, and at most twice for any element. -/
theorem fired_bounds (page : List Element) (events : List IntersectionEvent) (el : Element) :
    fired (runEvents page events) .counter el ≤ 1 ∧
    fired (runEvents page events) .reveal el ≤ 2 ∧
    (el.revealInMarkup = false → fired (runEvents page events) .reveal el ≤ 1) := by
  have hc := foldl_deliver_potential .counter el events (init page)
  have hr := foldl_deliver_potential .reveal el events (init page)
  have h0 : ∀ t, fired (init page) t el = 0 := fun t => by simp [fired, init]
  rw [h0] at hc hr
  refine ⟨?_, ?_, ?_⟩
  · have : pending (init page) .counter el ≤ 1 := by
      simp only [pending]; split_ifs <;> omega
    unfold runEvents; omega
  · have : pending (init page) .reveal el ≤ 2 := by
      simp only [pending]; split_ifs <;> omega
    unfold runEvents; omega
  · intro hm
    have hnot : el ∉ (init page).reveal1 := by
      simp [init, initScrollReveal, hm]
    have : pending (init page) .reveal el ≤ 1 := by
      simp only [pending, if_neg hnot]; split_ifs <;> omega
    unfold runEvents; omega

end CKRStudios
